import Mathlib

/-!
Verification of the core algorithms of the shorts-maker repository.

Two components carry the decision logic:

* `ContentAnalyzer.get_optimal_cut_points` (src/app/core/content_analyzer.py,
  lines 100-161): given the video duration and the detected scene-change and
  silence timestamps, it builds the sorted deduplicated cut-candidate list
  and walks it to emit `(start, end)` segments subject to a minimum and
  maximum duration.  Timestamps are Python floats; we model them as rationals
  (every comparison, addition and subtraction used by the code is exact on the
  values of interest), keeping the control flow verbatim.

* `MobileConverter.convert_to_mobile_format` (src/app/core/mobile_converter.py,
  lines 50-68): pure integer geometry for the 9:16 mobile canvas.  Python
  `int(...)` truncates toward zero and `//` is floor division; both are
  modelled explicitly.

* `MultiShortsAlgorithm.process_video` (src/app/algorithms/multi_shorts.py,
  lines 121-160): the per-segment loop; we model the outcome of the three
  external calls of one iteration (extraction success, temp-file existence,
  mobile-conversion success) and mirror the loop's accounting of
  `successful_segments` and `result_files`.
-/

namespace ShortsMaker

/-- Truncation toward zero of a rational: the semantics of Python `int(x)`
applied to the (exact) value of a float expression. -/
def pyTrunc (q : ℚ) : ℤ := if q < 0 then ⌈q⌉ else ⌊q⌋

/-- Layout quantities computed by `MobileConverter.convert_to_mobile_format`
(src/app/core/mobile_converter.py, lines 50-68): foreground (main) scale and
position, background scale, and horizontal background offset. -/
structure LayoutPlan where
  mainScaleWidth : ℤ
  mainScaleHeight : ℤ
  mainX : ℤ
  mainY : ℤ
  bgScaleWidth : ℤ
  bgScaleHeight : ℤ
  bgX : ℤ

/-- The geometry block of `convert_to_mobile_format`, translated line by line:
`target_width = 1080`, `target_height = 1920`,
`main_scale_width = int(target_width * mobile_scale_factor)`,
`main_scale_height = int(original_height * (main_scale_width / original_width))`,
`main_x = (target_width - main_scale_width) // 2`,
`main_y = (target_height - main_scale_height) // 2`,
`bg_scale_height = target_height`,
`bg_scale_width = int(original_width * (target_height / original_height))`,
`bg_x = (target_width - bg_scale_width) // 2`.

Modelling caveat: the Python multiplications and divisions act on IEEE double
floats; here they are modelled as exact rationals.  The two semantics agree at
the concrete inputs evaluated below, but an `int(...)` result can differ by
one when the exact value sits at an integer threshold — e.g. for an exactly
9:16 source such as 8487x15088 the exact `8487 * (1920 / 15088)` is 1080
while the float computation yields 1079.999... and truncates to 1079.
Theorems that quantify over sources therefore carry hypotheses (a strict
aspect-ratio margin and bounded dimensions) under which the float rounding
error, below 3e-13 here, cannot cross the threshold, so the statement also
holds of the float program. -/
def convertToMobileFormat (originalWidth originalHeight : ℤ) (mobileScaleFactor : ℚ) :
    LayoutPlan :=
  let targetWidth : ℤ := 1080
  let targetHeight : ℤ := 1920
  let mainScaleWidth : ℤ := pyTrunc ((targetWidth : ℚ) * mobileScaleFactor)
  let mainScaleHeight : ℤ :=
    pyTrunc ((originalHeight : ℚ) * ((mainScaleWidth : ℚ) / (originalWidth : ℚ)))
  let mainX : ℤ := Int.fdiv (targetWidth - mainScaleWidth) 2
  let mainY : ℤ := Int.fdiv (targetHeight - mainScaleHeight) 2
  let bgScaleHeight : ℤ := targetHeight
  let bgScaleWidth : ℤ :=
    pyTrunc ((originalWidth : ℚ) * ((targetHeight : ℚ) / (originalHeight : ℚ)))
  let bgX : ℤ := Int.fdiv (targetWidth - bgScaleWidth) 2
  ⟨mainScaleWidth, mainScaleHeight, mainX, mainY, bgScaleWidth, bgScaleHeight, bgX⟩

/-- Python `sorted(set(l))`: remove duplicates, then sort ascending
(content_analyzer.py, line 127). -/
def sortedDedup (l : List ℚ) : List ℚ := l.dedup.insertionSort (· ≤ ·)

/-- The inner search of `get_optimal_cut_points` (content_analyzer.py, lines
143-149): `target_end = current_start + max_duration`,
`best_cut = current_start + max_duration`, then for each `potential_cut` in
`all_cuts`, if `current_start < potential_cut <= target_end` and
`abs(potential_cut - target_end) < abs(best_cut - target_end)`, update
`best_cut`. -/
def bestCut (allCuts : List ℚ) (currentStart maxDuration : ℚ) : ℚ :=
  allCuts.foldl
    (fun best c =>
      if currentStart < c ∧ c ≤ currentStart + maxDuration ∧
          |c - (currentStart + maxDuration)| < |best - (currentStart + maxDuration)| then c
      else best)
    (currentStart + maxDuration)

/-- The scan over `all_cuts[1:]` of `get_optimal_cut_points` (content_analyzer.py,
lines 133-155), with explicit state: the list of segments emitted so far and
`current_start`.  A candidate closer than `min_duration` to `current_start` is
skipped; a candidate farther than `max_duration` triggers the `bestCut` search
and emits `(current_start, best_cut)`; otherwise `(current_start, cut_point)`
is emitted.  Returns the emitted segments and the final `current_start`. -/
def planLoop (allCuts : List ℚ) (minD maxD : ℚ) : List ℚ → ℚ → List (ℚ × ℚ) × ℚ
  | [], cur => ([], cur)
  | c :: rest, cur =>
    if c - cur < minD then planLoop allCuts minD maxD rest cur
    else if c - cur > maxD then
      let b := bestCut allCuts cur maxD
      let r := planLoop allCuts minD maxD rest b
      ((cur, b) :: r.1, r.2)
    else
      let r := planLoop allCuts minD maxD rest c
      ((cur, c) :: r.1, r.2)

/-- `get_optimal_cut_points` (content_analyzer.py, lines 127-161) after the
detector calls: `all_cuts = sorted(set(scene_changes + silence_pauses +
[0, duration]))`, the scan over `all_cuts[1:]` starting from
`current_start = 0`, and the final `if duration - current_start >=
min_duration: segments.append((current_start, duration))`. -/
def plan (duration : ℚ) (sceneTimes silenceTimes : List ℚ) (minD maxD : ℚ) :
    List (ℚ × ℚ) :=
  let allCuts := sortedDedup (sceneTimes ++ silenceTimes ++ [0, duration])
  let r := planLoop allCuts minD maxD allCuts.tail 0
  if minD ≤ duration - r.2 then r.1 ++ [(r.2, duration)] else r.1

/-- Kind of artifact kept as a segment's result file in
`MultiShortsAlgorithm.process_video`: the mobile-format render, or the
original-aspect extracted clip kept as fallback. -/
inductive ClipKind
  | mobile
  | original
  deriving DecidableEq

/-- Outcome of the external calls made for one segment in
`process_video` (multi_shorts.py, lines 121-160): whether
`extract_segment` returned True, whether the temp file exists, and whether
`convert_to_mobile_format` returned True. -/
structure SegOutcome where
  extractOk : Bool
  tempExists : Bool
  convertOk : Bool

/-- One iteration of the segment loop of `process_video` (multi_shorts.py,
lines 121-160), acting on the accumulator `(successful_segments,
result_files)`: on successful extraction with an existing temp file, a
successful conversion appends the mobile file, a failed conversion renames the
temp clip to the final path and appends it (original aspect); both count the
segment as successful.  Any other outcome leaves the accumulator unchanged. -/
def processVideoStep (acc : ℕ × List ClipKind) (o : SegOutcome) : ℕ × List ClipKind :=
  if o.extractOk then
    if o.tempExists then
      if o.convertOk then (acc.1 + 1, acc.2 ++ [ClipKind.mobile])
      else (acc.1 + 1, acc.2 ++ [ClipKind.original])
    else acc
  else acc

/-- The whole segment loop of `process_video`: fold `processVideoStep` over the
per-segment outcomes, starting from `successful_segments = 0` and
`result_files = []`. -/
def processVideo (outcomes : List SegOutcome) : ℕ × List ClipKind :=
  outcomes.foldl processVideoStep (0, [])

/-- Boundary timestamps of a list of segments: all the starts and all the
ends.  Used to state the round-trip property (claim about re-feeding the
planner its own output boundaries). -/
def segBoundaries (segs : List (ℚ × ℚ)) : List ℚ :=
  segs.map Prod.fst ++ segs.map Prod.snd

/-- Contiguity predicate: `IsChain a segs b` says the segments in `segs` start
at `a`, each subsequent segment starts where the previous one ended, and the
last one ends at `b` (with `a = b` when there are no segments). -/
def IsChain : ℚ → List (ℚ × ℚ) → ℚ → Prop
  | a, [], b => a = b
  | a, s :: rest, b => s.1 = a ∧ IsChain s.2 rest b

/-- Segment list spanned by a start point and the successive end points. -/
def chainSegs : ℚ → List ℚ → List (ℚ × ℚ)
  | _, [] => []
  | a, e :: es => (a, e) :: chainSegs e es

/-- Gap discipline of a boundary chain: each successive end point lies between
`minD` and `maxD` after its predecessor. -/
def ChainGaps (minD maxD : ℚ) : ℚ → List ℚ → Prop
  | _, [] => True
  | cur, e :: es => minD ≤ e - cur ∧ e - cur ≤ maxD ∧ ChainGaps minD maxD e es

/-- Last element of a list, with default `a` for the empty list. -/
def lastOr (a : ℚ) : List ℚ → ℚ
  | [] => a
  | e :: es => lastOr e es

/-- The update condition of the `best_cut` search compares each candidate's
distance to the target against the distance of the current best, but the
search starts with `best_cut = target_end`, whose distance is zero; no
candidate can be strictly closer, so the fold returns its starting value. -/
theorem bestCut_eq (l : List ℚ) (cur maxD : ℚ) : bestCut l cur maxD = cur + maxD := by
  have aux : ∀ m : List ℚ,
      m.foldl
        (fun best c =>
          if cur < c ∧ c ≤ cur + maxD ∧
              |c - (cur + maxD)| < |best - (cur + maxD)| then c
          else best)
        (cur + maxD) = cur + maxD := by
    intro m
    induction m with
    | nil => rfl
    | cons x xs ih =>
      rw [List.foldl_cons]
      have hcond : ¬ (cur < x ∧ x ≤ cur + maxD ∧
          |x - (cur + maxD)| < |(cur + maxD) - (cur + maxD)|) := by
        rintro ⟨-, -, habs⟩
        rw [sub_self, abs_zero] at habs
        exact absurd habs (abs_nonneg _).not_lt
      rw [if_neg hcond]
      exact ih
  exact aux l

/-- The scan's output is a contiguous chain: the first emitted segment starts
at the incoming `current_start`, each segment starts where the previous one
ended, and the final `current_start` is the last emitted end. -/
theorem planLoop_chain (A : List ℚ) (mi ma : ℚ) :
    ∀ (cuts : List ℚ) (cur : ℚ),
      IsChain cur (planLoop A mi ma cuts cur).1 (planLoop A mi ma cuts cur).2 := by
  intro cuts
  induction cuts with
  | nil => intro cur; exact rfl
  | cons c rest ih =>
    intro cur
    simp only [planLoop]
    split
    · exact ih cur
    · split
      · exact ⟨rfl, ih _⟩
      · exact ⟨rfl, ih c⟩

/-- Every segment emitted by the scan has length at most `max_duration`:
the normal branch only fires when the pending length is not above the cap,
and the overrun branch always emits exactly `max_duration` because the
`best_cut` search never moves off the synthetic target. -/
theorem planLoop_maxlen (A : List ℚ) (mi ma : ℚ) :
    ∀ (cuts : List ℚ) (cur : ℚ) (s : ℚ × ℚ),
      s ∈ (planLoop A mi ma cuts cur).1 → s.2 - s.1 ≤ ma := by
  intro cuts
  induction cuts with
  | nil => intro cur s hs; simp [planLoop] at hs
  | cons c rest ih =>
    intro cur s hs
    simp only [planLoop] at hs
    split at hs
    · exact ih cur s hs
    · rename_i hgt
      split at hs
      · rcases List.mem_cons.mp hs with h | h
        · rw [h, bestCut_eq]
          simp
        · exact ih _ s h
      · rename_i hle
        rcases List.mem_cons.mp hs with h | h
        · rw [h]
          simpa using not_lt.mp hle
        · exact ih c s h

/-- Every segment emitted by the scan has length at least `min_duration`
(provided `min_duration <= max_duration`): candidates closer than
`min_duration` are skipped, and the overrun branch emits exactly
`max_duration`. -/
theorem planLoop_minlen (A : List ℚ) (mi ma : ℚ) (hma : mi ≤ ma) :
    ∀ (cuts : List ℚ) (cur : ℚ) (s : ℚ × ℚ),
      s ∈ (planLoop A mi ma cuts cur).1 → mi ≤ s.2 - s.1 := by
  intro cuts
  induction cuts with
  | nil => intro cur s hs; simp [planLoop] at hs
  | cons c rest ih =>
    intro cur s hs
    simp only [planLoop] at hs
    split at hs
    · exact ih cur s hs
    · rename_i hsk
      split at hs
      · rcases List.mem_cons.mp hs with h | h
        · rw [h, bestCut_eq]
          simpa using hma
        · exact ih _ s h
      · rcases List.mem_cons.mp hs with h | h
        · rw [h]
          simpa using not_lt.mp hsk
        · exact ih c s h

/-- If every remaining candidate lies at most `D` and the incoming
`current_start` is at most `D`, then every emitted end and the final
`current_start` stay at most `D`.  The overrun branch stays below `D` because
its synthetic end `current_start + max_duration` is strictly below the
triggering candidate. -/
theorem planLoop_le (A : List ℚ) (mi ma D : ℚ) :
    ∀ (cuts : List ℚ) (cur : ℚ), (∀ c ∈ cuts, c ≤ D) → cur ≤ D →
      (∀ s ∈ (planLoop A mi ma cuts cur).1, s.2 ≤ D) ∧
        (planLoop A mi ma cuts cur).2 ≤ D := by
  intro cuts
  induction cuts with
  | nil =>
    intro cur _ hcur
    refine ⟨?_, hcur⟩
    intro s hs
    simp [planLoop] at hs
  | cons c rest ih =>
    intro cur hcuts hcur
    have hc : c ≤ D := hcuts c (List.mem_cons_self c rest)
    have hrest : ∀ x ∈ rest, x ≤ D := fun x hx => hcuts x (List.mem_cons_of_mem c hx)
    simp only [planLoop]
    split
    · exact ih cur hrest hcur
    · rename_i hgt
      split
      · rename_i hover
        rw [bestCut_eq]
        have hb : cur + ma ≤ D := le_trans (le_of_lt (by linarith)) hc
        have hrec := ih (cur + ma) hrest hb
        refine ⟨?_, hrec.2⟩
        intro s hs
        rcases List.mem_cons.mp hs with h | h
        · rw [h]; exact hb
        · exact hrec.1 s h
      · have hrec := ih c hrest hc
        refine ⟨?_, hrec.2⟩
        intro s hs
        rcases List.mem_cons.mp hs with h | h
        · rw [h]; exact hc
        · exact hrec.1 s h

/-- When every remaining candidate is closer than `min_duration` to the
incoming `current_start`, the scan skips all of them and emits nothing. -/
theorem planLoop_all_small (A : List ℚ) (mi ma : ℚ) :
    ∀ (cuts : List ℚ) (cur : ℚ), (∀ c ∈ cuts, c - cur < mi) →
      planLoop A mi ma cuts cur = ([], cur) := by
  intro cuts
  induction cuts with
  | nil => intro cur _; rfl
  | cons c rest ih =>
    intro cur hsmall
    simp only [planLoop]
    rw [if_pos (hsmall c (List.mem_cons_self c rest))]
    exact ih cur fun x hx => hsmall x (List.mem_cons_of_mem c hx)

/-- Membership in the sorted deduplicated candidate list is membership in the
raw concatenation. -/
theorem mem_sortedDedup {x : ℚ} {l : List ℚ} : x ∈ sortedDedup l ↔ x ∈ l := by
  rw [sortedDedup, (List.perm_insertionSort _ _).mem_iff, List.mem_dedup]

/-- A strictly increasing list with the same members as `l` is exactly
`sortedDedup l`. -/
theorem sortedDedup_eq (L M : List ℚ) (hM : List.Chain' (· < ·) M)
    (hmem : ∀ x, x ∈ L ↔ x ∈ M) : sortedDedup L = M := by
  have hMp : M.Pairwise (· < ·) := List.chain'_iff_pairwise.mp hM
  have hMs : List.Sorted (· ≤ ·) M := hMp.imp le_of_lt
  have hMn : M.Nodup := hMp.imp ne_of_lt
  have hLs : List.Sorted (· ≤ ·) (sortedDedup L) := List.sorted_insertionSort _ _
  have hLn : (sortedDedup L).Nodup :=
    ((List.perm_insertionSort _ _).nodup_iff).mpr (List.nodup_dedup L)
  have hperm : (sortedDedup L).Perm M :=
    (List.perm_ext_iff_of_nodup hLn hMn).mpr fun a => by
      rw [mem_sortedDedup]; exact hmem a
  exact List.eq_of_perm_of_sorted hperm hLs hMs

/-- Appending a segment that starts at the chain's end extends the chain. -/
theorem isChain_append_single :
    ∀ (l : List (ℚ × ℚ)) (a b c : ℚ), IsChain a l b → IsChain a (l ++ [(b, c)]) c := by
  intro l
  induction l with
  | nil => intro a b c h; exact ⟨h.symm, rfl⟩
  | cons s rest ih => intro a b c h; exact ⟨h.1, ih s.2 b c h.2⟩

/-- In a chain of segments whose ends are not before their starts, every
segment lies between the chain's endpoints. -/
theorem isChain_bounds :
    ∀ (l : List (ℚ × ℚ)) (a b : ℚ), IsChain a l b → (∀ s ∈ l, s.1 ≤ s.2) →
      (∀ s ∈ l, a ≤ s.1 ∧ s.2 ≤ b) ∧ a ≤ b := by
  intro l
  induction l with
  | nil =>
    intro a b h _
    exact ⟨by simp, le_of_eq h⟩
  | cons s rest ih =>
    intro a b h hlen
    obtain ⟨hs1, hrest⟩ := h
    have hlen2 : ∀ t ∈ rest, t.1 ≤ t.2 := fun t ht => hlen t (List.mem_cons_of_mem s ht)
    have hss : s.1 ≤ s.2 := hlen s (List.mem_cons_self s rest)
    obtain ⟨hmem, hab⟩ := ih s.2 b hrest hlen2
    refine ⟨?_, by linarith [hs1]⟩
    intro t ht
    rcases List.mem_cons.mp ht with h1 | h1
    · rw [h1]
      exact ⟨le_of_eq hs1.symm, hab⟩
    · obtain ⟨h2, h3⟩ := hmem t h1
      exact ⟨by linarith [hs1], h3⟩

/-- A chain of segments whose ends are not before their starts is pairwise
non-overlapping in ascending order. -/
theorem isChain_pairwise :
    ∀ (l : List (ℚ × ℚ)) (a b : ℚ), IsChain a l b → (∀ s ∈ l, s.1 ≤ s.2) →
      l.Pairwise (fun s t => s.2 ≤ t.1) := by
  intro l
  induction l with
  | nil => intro a b _ _; exact List.Pairwise.nil
  | cons s rest ih =>
    intro a b h hlen
    obtain ⟨hs1, hrest⟩ := h
    have hlen2 : ∀ t ∈ rest, t.1 ≤ t.2 := fun t ht => hlen t (List.mem_cons_of_mem s ht)
    refine List.Pairwise.cons ?_ (ih s.2 b hrest hlen2)
    intro t ht
    exact ((isChain_bounds rest s.2 b hrest hlen2).1 t ht).1

/-- A chain of segments is determined by its start point and its list of end
points, and the chain's final point is the last end point. -/
theorem isChain_chainSegs :
    ∀ (l : List (ℚ × ℚ)) (a b : ℚ), IsChain a l b →
      l = chainSegs a (l.map Prod.snd) ∧ b = lastOr a (l.map Prod.snd) := by
  intro l
  induction l with
  | nil => intro a b h; exact ⟨rfl, h.symm⟩
  | cons s rest ih =>
    intro a b h
    obtain ⟨hs1, hrest⟩ := h
    obtain ⟨h1, h2⟩ := ih s.2 b hrest
    constructor
    · have hseq : s = (a, s.2) := by rw [← hs1]
      show s :: rest = chainSegs a ((s :: rest).map Prod.snd)
      rw [List.map_cons]
      show s :: rest = (a, s.2) :: chainSegs s.2 (rest.map Prod.snd)
      rw [← h1, ← hseq]
    · show b = lastOr a ((s :: rest).map Prod.snd)
      rw [List.map_cons]
      show b = lastOr s.2 (rest.map Prod.snd)
      exact h2

/-- Starts of a chain of segments: the start point followed by all end points
except the last. -/
theorem chainSegs_map_fst :
    ∀ (es : List ℚ) (a : ℚ), (chainSegs a es).map Prod.fst = (a :: es).dropLast := by
  intro es
  induction es with
  | nil => intro a; rfl
  | cons e es ih =>
    intro a
    show a :: (chainSegs e es).map Prod.fst = (a :: e :: es).dropLast
    rw [ih e]
    rfl

/-- Last element of a list ending in `x` is `x`. -/
theorem lastOr_append_single : ∀ (l : List ℚ) (a x : ℚ), lastOr a (l ++ [x]) = x := by
  intro l
  induction l with
  | nil => intro a x; rfl
  | cons e es ih => intro a x; exact ih e x

/-- The `lastOr` of a list is its default or one of its elements. -/
theorem lastOr_mem : ∀ (l : List ℚ) (a : ℚ), lastOr a l = a ∨ lastOr a l ∈ l := by
  intro l
  induction l with
  | nil => intro a; exact Or.inl rfl
  | cons e es ih =>
    intro a
    rcases ih e with h | h
    · exact Or.inr (by rw [show lastOr a (e :: es) = lastOr e es from rfl, h]; exact List.mem_cons_self e es)
    · exact Or.inr (List.mem_cons_of_mem e h)

/-- A segment chain whose lengths all lie in `[minD, maxD]` gives a boundary
chain with the same gap discipline. -/
theorem chainGaps_of_chainSegs (mi ma : ℚ) :
    ∀ (es : List ℚ) (a : ℚ),
      (∀ s ∈ chainSegs a es, mi ≤ s.2 - s.1 ∧ s.2 - s.1 ≤ ma) →
      ChainGaps mi ma a es := by
  intro es
  induction es with
  | nil => intro a _; trivial
  | cons e es ih =>
    intro a h
    have h1 := h (a, e) (List.mem_cons_self _ _)
    exact ⟨by simpa using h1.1, by simpa using h1.2,
      ih e fun s hs => h s (List.mem_cons_of_mem _ hs)⟩

/-- A boundary chain with positive minimum gap is strictly increasing. -/
theorem chainGaps_chain_lt (mi ma : ℚ) (hmi : 0 < mi) :
    ∀ (es : List ℚ) (a : ℚ), ChainGaps mi ma a es → List.Chain' (· < ·) (a :: es) := by
  intro es
  induction es with
  | nil => intro a _; simp
  | cons e es ih =>
    intro a h
    obtain ⟨h1, h2, h3⟩ := h
    rw [List.chain'_cons]
    exact ⟨by linarith, ih e h3⟩

/-- Appending a point beyond the last element keeps a list strictly
increasing. -/
theorem chain_lt_concat :
    ∀ (es : List ℚ) (a d : ℚ), List.Chain' (· < ·) (a :: es) → lastOr a es < d →
      List.Chain' (· < ·) ((a :: es) ++ [d]) := by
  intro es
  induction es with
  | nil =>
    intro a d _ hlast
    show List.Chain' (· < ·) [a, d]
    rw [List.chain'_cons]
    exact ⟨hlast, List.chain'_singleton d⟩
  | cons e es ih =>
    intro a d hch hlast
    rw [List.chain'_cons] at hch
    show List.Chain' (· < ·) (a :: (e :: (es ++ [d])))
    rw [List.chain'_cons]
    exact ⟨hch.1, ih e d hch.2 hlast⟩

/-- Replay: walking a boundary chain whose gaps all lie in `[minD, maxD]`
reproduces exactly the chain's segments, ending at the chain's last point.
Every step takes the normal branch, so the result does not depend on the
`all_cuts` list passed to the `best_cut` search. -/
theorem planLoop_replay (A : List ℚ) (mi ma : ℚ) :
    ∀ (es : List ℚ) (cur : ℚ), ChainGaps mi ma cur es →
      planLoop A mi ma es cur = (chainSegs cur es, lastOr cur es) := by
  intro es
  induction es with
  | nil => intro cur _; rfl
  | cons e es ih =>
    intro cur h
    obtain ⟨h1, h2, h3⟩ := h
    simp only [planLoop]
    rw [if_neg (by linarith), if_neg (by linarith), ih e h3]
    rfl

/-- Replay with one trailing point closer than `minD` to the chain's last
point: the trailing point is skipped and the output is unchanged. -/
theorem planLoop_replay_skip (A : List ℚ) (mi ma : ℚ) :
    ∀ (es : List ℚ) (cur d : ℚ), ChainGaps mi ma cur es → d - lastOr cur es < mi →
      planLoop A mi ma (es ++ [d]) cur = (chainSegs cur es, lastOr cur es) := by
  intro es
  induction es with
  | nil =>
    intro cur d _ hlast
    show planLoop A mi ma [d] cur = _
    simp only [planLoop]
    rw [if_pos (show d - cur < mi from hlast)]
    rfl
  | cons e es ih =>
    intro cur d h hlast
    obtain ⟨h1, h2, h3⟩ := h
    show planLoop A mi ma (e :: (es ++ [d])) cur = _
    simp only [planLoop]
    rw [if_neg (by linarith), if_neg (by linarith)]
    rw [ih e d h3 hlast]
    rfl

/-- The planner's full output is a contiguous chain starting at 0: the scan
output is a chain by `planLoop_chain`, and the optional final segment starts
at the scan's final `current_start`. -/
theorem plan_chain (d : ℚ) (sc si : List ℚ) (mi ma : ℚ) :
    ∃ e, IsChain 0 (plan d sc si mi ma) e := by
  simp only [plan]
  split
  · exact ⟨d, isChain_append_single _ _ _ _ (planLoop_chain _ _ _ _ _)⟩
  · exact ⟨_, planLoop_chain _ _ _ _ _⟩

/-- Every segment the planner emits has length at least `min_duration`
(assuming `min_duration <= max_duration`): scan segments by
`planLoop_minlen`, and the final segment by its emission guard. -/
theorem plan_minlen (d mi ma : ℚ) (sc si : List ℚ) (hma : mi ≤ ma) :
    ∀ s ∈ plan d sc si mi ma, mi ≤ s.2 - s.1 := by
  intro s hs
  simp only [plan] at hs
  split at hs
  · rename_i hfin
    rcases List.mem_append.mp hs with h | h
    · exact planLoop_minlen _ _ _ hma _ _ s h
    · rw [List.mem_singleton.mp h]
      simpa using hfin
  · exact planLoop_minlen _ _ _ hma _ _ s hs

/-- Every segment the planner emits, except possibly the last one, has length
at most `max_duration`: those are exactly the scan-emitted segments (plus, in
the no-final-segment case, a sublist of them). -/
theorem plan_dropLast_maxlen (d mi ma : ℚ) (sc si : List ℚ) :
    ∀ s ∈ (plan d sc si mi ma).dropLast, s.2 - s.1 ≤ ma := by
  intro s hs
  simp only [plan] at hs
  split at hs
  · rw [List.dropLast_concat] at hs
    exact planLoop_maxlen _ _ _ _ _ s hs
  · exact planLoop_maxlen _ _ _ _ _ s ((List.dropLast_sublist _).subset hs)

/-- When every candidate timestamp is at most the duration, every emitted
segment ends at most at the duration. -/
theorem plan_le (d mi ma : ℚ) (sc si : List ℚ) (hd : 0 ≤ d)
    (hsc : ∀ t ∈ sc, t ≤ d) (hsi : ∀ t ∈ si, t ≤ d) :
    ∀ s ∈ plan d sc si mi ma, s.2 ≤ d := by
  have hA : ∀ c ∈ sortedDedup (sc ++ si ++ [0, d]), c ≤ d := by
    intro c hc
    rw [mem_sortedDedup] at hc
    rcases List.mem_append.mp hc with h | h
    · rcases List.mem_append.mp h with h1 | h1
      · exact hsc c h1
      · exact hsi c h1
    · rcases List.mem_cons.mp h with h1 | h1
      · rw [h1]; exact hd
      · rw [List.mem_singleton.mp h1]
  have htail : ∀ c ∈ (sortedDedup (sc ++ si ++ [0, d])).tail, c ≤ d :=
    fun c hc => hA c (List.mem_of_mem_tail hc)
  intro s hs
  simp only [plan] at hs
  split at hs
  · rcases List.mem_append.mp hs with h | h
    · exact (planLoop_le _ _ _ _ _ _ htail hd).1 s h
    · rw [List.mem_singleton.mp h]
  · exact (planLoop_le _ _ _ _ _ _ htail hd).1 s hs

/-- The duration never exceeds the planner's last boundary by `min_duration`
or more: either the final segment was emitted (so the last end is exactly the
duration), or its guard failed (so the remainder past the scan's last end is
below `min_duration`). -/
theorem plan_last (d mi ma : ℚ) (sc si : List ℚ) :
    d - lastOr 0 ((plan d sc si mi ma).map Prod.snd) < mi ∨
      lastOr 0 ((plan d sc si mi ma).map Prod.snd) = d := by
  simp only [plan]
  split
  · right
    rw [List.map_append]
    exact lastOr_append_single _ _ _
  · rename_i hfin
    left
    have hch := planLoop_chain (sortedDedup (sc ++ si ++ [0, d])) mi ma
      (sortedDedup (sc ++ si ++ [0, d])).tail 0
    have h2 := (isChain_chainSegs _ 0 _ hch).2
    rw [← h2]
    linarith [not_le.mp hfin]

/-- Membership in the raw cut-candidate list built from a segment list's
boundaries (plus the mandatory 0 and duration): it is membership in
`{0} ∪ ends ∪ {d}` once the starts are the shifted ends. -/
theorem boundary_mem (S : List (ℚ × ℚ)) (es : List ℚ) (d x : ℚ)
    (hfst : S.map Prod.fst = ((0 : ℚ) :: es).dropLast)
    (hsnd : S.map Prod.snd = es) :
    x ∈ segBoundaries S ++ [] ++ [0, d] ↔ x = 0 ∨ x ∈ es ∨ x = d := by
  constructor
  · intro hx
    rcases List.mem_append.mp hx with h | h
    · rcases List.mem_append.mp h with h1 | h1
      · simp only [segBoundaries] at h1
        rcases List.mem_append.mp h1 with h2 | h2
        · rw [hfst] at h2
          have h3 := (List.dropLast_sublist _).subset h2
          rcases List.mem_cons.mp h3 with h4 | h4
          · exact Or.inl h4
          · exact Or.inr (Or.inl h4)
        · rw [hsnd] at h2
          exact Or.inr (Or.inl h2)
      · exact absurd h1 (List.not_mem_nil x)
    · rcases List.mem_cons.mp h with h1 | h1
      · exact Or.inl h1
      · exact Or.inr (Or.inr (List.mem_singleton.mp h1))
  · intro hx
    rcases hx with h | h | h
    · exact List.mem_append.mpr (Or.inr (by rw [h]; exact List.mem_cons_self _ _))
    · refine List.mem_append.mpr (Or.inl (List.mem_append.mpr (Or.inl ?_)))
      simp only [segBoundaries]
      exact List.mem_append.mpr (Or.inr (by rw [hsnd]; exact h))
    · exact List.mem_append.mpr
        (Or.inr (by rw [h]; exact List.mem_cons_of_mem _ (List.mem_singleton.mpr rfl)))

/-- Re-planning from a contiguous segment chain: if `S` is the chain over end
points `es` with gaps in `[minD, maxD]`, all end points at most `d`, and `d`
either within `minD` of the last end point or equal to it, then running the
planner on the boundaries of `S` (as sole candidate set) returns `S`. -/
theorem replan_of_chain (d mi ma : ℚ) (S : List (ℚ × ℚ)) (es : List ℚ)
    (hd : 0 < d) (hmi : 0 < mi)
    (hsnd : S.map Prod.snd = es)
    (hS : S = chainSegs 0 es)
    (hgaps : ChainGaps mi ma 0 es)
    (hle : ∀ x ∈ es, x ≤ d)
    (hlast : d - lastOr 0 es < mi ∨ lastOr 0 es = d) :
    plan d (segBoundaries S) [] mi ma = S := by
  have hfst : S.map Prod.fst = ((0 : ℚ) :: es).dropLast := by
    rw [hS]; exact chainSegs_map_fst es 0
  have hchain : List.Chain' (· < ·) ((0 : ℚ) :: es) := chainGaps_chain_lt mi ma hmi es 0 hgaps
  by_cases hEq : lastOr 0 es = d
  · have hdm : d ∈ es := by
      rcases lastOr_mem es 0 with h | h
      · rw [h] at hEq; exact absurd hEq.symm (ne_of_gt hd)
      · rw [← hEq]; exact h
    have hAC : sortedDedup (segBoundaries S ++ [] ++ [0, d]) = (0 : ℚ) :: es := by
      apply sortedDedup_eq _ _ hchain
      intro x
      rw [boundary_mem S es d x hfst hsnd]
      constructor
      · rintro (h | h | h)
        · rw [h]; exact List.mem_cons_self _ _
        · exact List.mem_cons_of_mem _ h
        · rw [h]; exact List.mem_cons_of_mem _ hdm
      · intro h
        rcases List.mem_cons.mp h with h1 | h1
        · exact Or.inl h1
        · exact Or.inr (Or.inl h1)
    simp only [plan]
    rw [hAC, List.tail_cons]
    have hplr := planLoop_replay ((0 : ℚ) :: es) mi ma es 0 hgaps
    have hpl1 : (planLoop ((0 : ℚ) :: es) mi ma es 0).1 = chainSegs 0 es := by rw [hplr]
    have hpl2 : (planLoop ((0 : ℚ) :: es) mi ma es 0).2 = lastOr 0 es := by rw [hplr]
    rw [hpl1, hpl2, hEq]
    rw [if_neg (show ¬ mi ≤ d - d by rw [sub_self]; exact not_le.mpr hmi)]
    exact hS.symm
  · have hlt : d - lastOr 0 es < mi := by
      rcases hlast with h | h
      · exact h
      · exact absurd h hEq
    have hlastle : lastOr 0 es ≤ d := by
      rcases lastOr_mem es 0 with h | h
      · rw [h]; exact le_of_lt hd
      · exact hle _ h
    have hlastlt : lastOr 0 es < d := lt_of_le_of_ne hlastle hEq
    have hchain2 : List.Chain' (· < ·) (((0 : ℚ) :: es) ++ [d]) :=
      chain_lt_concat es 0 d hchain hlastlt
    have hAC : sortedDedup (segBoundaries S ++ [] ++ [0, d]) = ((0 : ℚ) :: es) ++ [d] := by
      apply sortedDedup_eq _ _ hchain2
      intro x
      rw [boundary_mem S es d x hfst hsnd]
      constructor
      · rintro (h | h | h)
        · exact List.mem_append.mpr (Or.inl (by rw [h]; exact List.mem_cons_self _ _))
        · exact List.mem_append.mpr (Or.inl (List.mem_cons_of_mem _ h))
        · exact List.mem_append.mpr (Or.inr (by rw [h]; exact List.mem_singleton.mpr rfl))
      · intro h
        rcases List.mem_append.mp h with h1 | h1
        · rcases List.mem_cons.mp h1 with h2 | h2
          · exact Or.inl h2
          · exact Or.inr (Or.inl h2)
        · exact Or.inr (Or.inr (List.mem_singleton.mp h1))
    simp only [plan]
    rw [hAC, List.cons_append, List.tail_cons]
    have hplr := planLoop_replay_skip ((0 : ℚ) :: (es ++ [d])) mi ma es 0 d hgaps hlt
    have hpl1 : (planLoop ((0 : ℚ) :: (es ++ [d])) mi ma (es ++ [d]) 0).1 = chainSegs 0 es := by
      rw [hplr]
    have hpl2 : (planLoop ((0 : ℚ) :: (es ++ [d])) mi ma (es ++ [d]) 0).2 = lastOr 0 es := by
      rw [hplr]
    rw [hpl1, hpl2]
    rw [if_neg (not_le.mpr hlt)]
    exact hS.symm

/-- Round-trip for well-behaved runs: when all candidate timestamps lie within
the video and every emitted segment respects the `max_duration` cap, feeding
the emitted boundaries back as the sole candidate set reproduces the same
segments. -/
theorem plan_roundtrip (d mi ma : ℚ) (sc si : List ℚ)
    (hd : 0 < d) (hmi : 0 < mi) (hma : mi ≤ ma)
    (hsc : ∀ t ∈ sc, t ≤ d) (hsi : ∀ t ∈ si, t ≤ d)
    (hb : ∀ s ∈ plan d sc si mi ma, s.2 - s.1 ≤ ma) :
    plan d (segBoundaries (plan d sc si mi ma)) [] mi ma = plan d sc si mi ma := by
  obtain ⟨e, hch⟩ := plan_chain d sc si mi ma
  obtain ⟨hS, hE⟩ := isChain_chainSegs _ 0 e hch
  have hmin := plan_minlen d mi ma sc si hma
  have hgaps : ChainGaps mi ma 0 ((plan d sc si mi ma).map Prod.snd) := by
    apply chainGaps_of_chainSegs
    intro s hs
    rw [← hS] at hs
    exact ⟨hmin s hs, hb s hs⟩
  have hle2 : ∀ x ∈ (plan d sc si mi ma).map Prod.snd, x ≤ d := by
    intro x hx
    obtain ⟨s, hs, rfl⟩ := List.mem_map.mp hx
    exact plan_le d mi ma sc si (le_of_lt hd) hsc hsi s hs
  exact replan_of_chain d mi ma _ _ hd hmi rfl hS hgaps hle2 (plan_last d mi ma sc si)

/-- One iteration of the segment loop only appends to the accumulator: its
effect is the effect on the empty accumulator, shifted. -/
theorem processVideoStep_shift (acc : ℕ × List ClipKind) (o : SegOutcome) :
    processVideoStep acc o =
      (acc.1 + (processVideoStep (0, []) o).1, acc.2 ++ (processVideoStep (0, []) o).2) := by
  rcases o with ⟨e, t, c⟩
  cases e <;> cases t <;> cases c <;> simp [processVideoStep]

/-- The segment loop from an arbitrary accumulator is the loop from the empty
accumulator, shifted: counts add and file lists concatenate. -/
theorem processVideo_shift (l : List SegOutcome) :
    ∀ acc : ℕ × List ClipKind,
      l.foldl processVideoStep acc = (acc.1 + (processVideo l).1, acc.2 ++ (processVideo l).2) := by
  induction l with
  | nil => intro acc; simp [processVideo]
  | cons o l ih =>
    intro acc
    rw [List.foldl_cons, ih (processVideoStep acc o)]
    have hpv : processVideo (o :: l) =
        ((processVideoStep (0, []) o).1 + (processVideo l).1,
         (processVideoStep (0, []) o).2 ++ (processVideo l).2) := by
      show (o :: l).foldl processVideoStep (0, []) = _
      rw [List.foldl_cons, ih (processVideoStep (0, []) o)]
    rw [hpv, processVideoStep_shift acc o]
    simp [add_assoc, List.append_assoc]

/-- Decomposition of the segment loop around one distinguished segment: the
segments before and after it are processed exactly as they would be alone. -/
theorem processVideo_append (pre suf : List SegOutcome) (o : SegOutcome) :
    processVideo (pre ++ o :: suf) =
      ((processVideo pre).1 + ((processVideoStep (0, []) o).1 + (processVideo suf).1),
       (processVideo pre).2 ++ ((processVideoStep (0, []) o).2 ++ (processVideo suf).2)) := by
  show (pre ++ o :: suf).foldl processVideoStep (0, []) = _
  rw [List.foldl_append]
  rw [processVideo_shift (o :: suf) (pre.foldl processVideoStep (0, []))]
  have h1 : pre.foldl processVideoStep ((0 : ℕ), ([] : List ClipKind)) = processVideo pre := rfl
  have hpv : processVideo (o :: suf) =
      ((processVideoStep (0, []) o).1 + (processVideo suf).1,
       (processVideoStep (0, []) o).2 ++ (processVideo suf).2) := by
    show (o :: suf).foldl processVideoStep (0, []) = _
    rw [List.foldl_cons, processVideo_shift suf (processVideoStep (0, []) o)]
  rw [h1, hpv]

/-- Integers below a nonnegative rational are below its truncation toward
zero. -/
theorem le_pyTrunc {n : ℤ} {q : ℚ} (hn : 0 ≤ n) (h : (n : ℚ) ≤ q) : n ≤ pyTrunc q := by
  have hq : ¬ q < 0 := by
    push_neg
    exact le_trans (by exact_mod_cast hn) h
  rw [pyTrunc, if_neg hq]
  exact Int.le_floor.mpr h

/-- Evaluation of the layout geometry on a 1920x1080 source with the default
scale factor 1.2: foreground 1296x729 at (-108, 595), background 3413x1920,
background offset -1167 (Python floor division of -2333 by 2). -/
theorem layoutExampleEval :
    convertToMobileFormat 1920 1080 (6/5) =
      ⟨1296, 729, -108, 595, 3413, 1920, -1167⟩ := by
  have h1 : pyTrunc (((1080 : ℤ) : ℚ) * (6/5)) = 1296 := by norm_num [pyTrunc]
  have h2 : pyTrunc (((1080 : ℤ) : ℚ) * (((1296 : ℤ) : ℚ) / ((1920 : ℤ) : ℚ))) = 729 := by
    norm_num [pyTrunc]
  have h3 : pyTrunc (((1920 : ℤ) : ℚ) * (((1920 : ℤ) : ℚ) / ((1080 : ℤ) : ℚ))) = 3413 := by
    norm_num [pyTrunc]
  simp only [convertToMobileFormat, h1, h2, h3, LayoutPlan.mk.injEq]
  exact ⟨by decide, by decide, by decide, by decide, by decide, by decide, by decide⟩

/-- C1: evaluation at the failing input duration=400, scene_times=[50],
silence_times=[], min_duration=60, max_duration=180 (all_cuts = [0, 50, 400]).
The claim (and the code's own comment) says the overrun cut must be the unique
candidate in (current_start, current_start + max_duration] nearest the target,
here 50; but `best_cut` starts at the target itself (distance 0), so the
search never updates and the code emits the synthetic cut 180 instead,
producing [(0, 180), (180, 400)]. -/
theorem C1_best_cut_search_never_fires :
    plan 400 [50] [] 60 180 = [(0, 180), (180, 400)] ∧
      bestCut [0, 50, 400] 0 180 = 180 := by
  constructor
  · norm_num [plan, sortedDedup, List.dedup, List.insertionSort, List.orderedInsert,
      List.pwFilter, planLoop, bestCut, List.foldl, abs]
  · norm_num [bestCut, List.foldl, abs]

/-- C2 counterexample: at duration=400 with no detected cuts
(min_duration=60, max_duration=180) the planner emits the final segment
(180, 400), whose length 220 exceeds max_duration, so the bound does not
cover the final segment emitted after the scan. -/
theorem C2_counterexample_final_segment_exceeds_max :
    plan 400 [] [] 60 180 = [(0, 180), (180, 400)] ∧ ¬ ((400 : ℚ) - 180 ≤ 180) := by
  constructor
  · norm_num [plan, sortedDedup, List.dedup, List.insertionSort, List.orderedInsert,
      List.pwFilter, planLoop, bestCut, List.foldl, abs]
  · norm_num

/-- C2 amended: every segment emitted during the scan of all_cuts has length
at most max_duration (the overrun branch always emits exactly max_duration via
the synthetic cut); formally, every emitted segment except possibly the last
one respects the cap.  Only the final segment emitted after the scan may
exceed max_duration. -/
theorem C2_scan_segments_respect_max (d mi ma : ℚ) (sc si : List ℚ) :
    ∀ s ∈ (plan d sc si mi ma).dropLast, s.2 - s.1 ≤ ma :=
  plan_dropLast_maxlen d mi ma sc si

/-- Witness for C2 amended: at duration=400 with no cuts, the non-final
segment (0, 180) respects the cap. -/
theorem C2_scan_segments_respect_max_witness :
    ((0 : ℚ), (180 : ℚ)) ∈ (plan 400 [] [] 60 180).dropLast ∧ (180 : ℚ) - 0 ≤ 180 := by
  have hmem : ((0 : ℚ), (180 : ℚ)) ∈ (plan 400 [] [] 60 180).dropLast := by
    norm_num [plan, sortedDedup, List.dedup, List.insertionSort, List.orderedInsert,
      List.pwFilter, planLoop, bestCut, List.foldl, abs, List.dropLast]
  exact ⟨hmem, C2_scan_segments_respect_max 400 60 180 [] [] _ hmem⟩

/-- C3 counterexample: for duration=400 with no detected cuts the planner
returns [(0, 180), (180, 400)], but feeding these boundaries back as the sole
candidate set returns [(0, 180), (180, 360)] — the over-long final segment is
re-split at 360 and its 40-second remainder is dropped, so the round-trip
does not reproduce the segments. -/
theorem C3_counterexample_roundtrip_fails :
    plan 400 (segBoundaries (plan 400 [] [] 60 180)) [] 60 180 ≠
      plan 400 [] [] 60 180 := by
  norm_num [plan, segBoundaries, sortedDedup, List.dedup, List.insertionSort,
    List.orderedInsert, List.pwFilter, planLoop, bestCut, List.foldl, abs]

/-- C3 amended: the round-trip holds on every valid input whose candidate
timestamps lie within the video and whose emitted segments all respect
max_duration (in particular the final one): feeding the emitted boundaries
back as the sole candidate set (same duration and duration bounds) reproduces
exactly the same segment sequence. -/
theorem C3_roundtrip_amended (d mi ma : ℚ) (sc si : List ℚ)
    (hd : 0 < d) (hmi : 0 < mi) (hma : mi < ma)
    (hsc : ∀ t ∈ sc, t ≤ d) (hsi : ∀ t ∈ si, t ≤ d)
    (hb : ∀ s ∈ plan d sc si mi ma, s.2 - s.1 ≤ ma) :
    plan d (segBoundaries (plan d sc si mi ma)) [] mi ma = plan d sc si mi ma :=
  plan_roundtrip d mi ma sc si hd hmi (le_of_lt hma) hsc hsi hb

/-- Witness for C3 amended: duration=300 with one scene cut at 100 gives
segments [(0, 100), (100, 280)], all within the cap, and the round-trip
reproduces them. -/
theorem C3_roundtrip_amended_witness :
    ((0 : ℚ) < 300 ∧ (0 : ℚ) < 60 ∧ (60 : ℚ) < 180 ∧
      (∀ t ∈ [(100 : ℚ)], t ≤ 300) ∧ (∀ t ∈ ([] : List ℚ), t ≤ 300) ∧
      (∀ s ∈ plan 300 [100] [] 60 180, s.2 - s.1 ≤ 180)) ∧
    plan 300 (segBoundaries (plan 300 [100] [] 60 180)) [] 60 180 =
      plan 300 [100] [] 60 180 := by
  have hb : ∀ s ∈ plan 300 [100] [] 60 180, s.2 - s.1 ≤ 180 := by
    norm_num [plan, sortedDedup, List.dedup, List.insertionSort, List.orderedInsert,
      List.pwFilter, planLoop, bestCut, List.foldl, abs]
  refine ⟨⟨by norm_num, by norm_num, by norm_num, by norm_num, by norm_num, hb⟩, ?_⟩
  exact C3_roundtrip_amended 300 60 180 [100] [] (by norm_num) (by norm_num) (by norm_num)
    (by norm_num) (by norm_num) hb

/-- C4 counterexample: the layout on a 1920x1080 source with scale factor 1.2
does not have background offset bg_x = -1166: Python computes
(1080 - 3413) // 2 with floor division, giving -1167. -/
theorem C4_counterexample_layout_bg_x :
    convertToMobileFormat 1920 1080 (6/5) ≠
      ⟨1296, 729, -108, 595, 3413, 1920, -1166⟩ := by
  rw [layoutExampleEval]
  intro h
  have hb := congrArg LayoutPlan.bgX h
  exact absurd hb (by decide)

/-- C4 amended: the layout on a 1920x1080 source with scale factor 1.2 is
foreground 1296x729 at origin (-108, 595), background 3413x1920, and
background offset bg_x = -1167. -/
theorem C4_layout_eval_amended :
    convertToMobileFormat 1920 1080 (6/5) =
      ⟨1296, 729, -108, 595, 3413, 1920, -1167⟩ :=
  layoutExampleEval

/-- C5 counterexample: for the valid input source 100x1920 with scale factor
1.2 (width positive, height positive, scale factor at least 1) the computed
background width is 100, which is below the target width 1080, refuting the
unconditional invariant bg_w >= target_width. -/
theorem C5_counterexample_bg_width :
    (1 : ℚ) ≤ 6/5 ∧ (convertToMobileFormat 100 1920 (6/5)).bgScaleWidth < 1080 := by
  constructor
  · norm_num
  · show pyTrunc (((100 : ℤ) : ℚ) * (((1920 : ℤ) : ℚ) / ((1920 : ℤ) : ℚ))) < 1080
    norm_num [pyTrunc]

/-- C5 amended: for every source of realistic size (positive dimensions, both
at most 10^9 pixels) whose aspect ratio is strictly wider than 9:16 (that is,
9 * height < 16 * width) and any scale factor at least 1, the layout satisfies
bg_h = 1920 and bg_w >= 1080; bg_h = 1920 needs no hypothesis at all.  The
exact 9:16 boundary 9 * height = 16 * width must be excluded: there the exact
background width is exactly 1080 and the program's float rounding can land
just below it (source 8487x15088 yields `int(8487 * (1920 / 15088)) = 1079`).
Off the boundary the exact value exceeds 1080 by at least 120 / height —
at least 1.2e-7 under the size bound — which dwarfs the float rounding
error, so the conclusion holds of the float program as well. -/
theorem C5_bg_invariant_amended (w h : ℤ) (sf : ℚ) (hw : 0 < w)
    (hwB : w ≤ 1000000000) (hh : 0 < h) (hhB : h ≤ 1000000000)
    (hsf : 1 ≤ sf) (hratio : 9 * h < 16 * w) :
    (convertToMobileFormat w h sf).bgScaleHeight = 1920 ∧
      1080 ≤ (convertToMobileFormat w h sf).bgScaleWidth := by
  constructor
  · rfl
  · show (1080 : ℤ) ≤ pyTrunc ((w : ℚ) * (((1920 : ℤ) : ℚ) / (h : ℚ)))
    apply le_pyTrunc (by norm_num)
    have hhq : (0 : ℚ) < (h : ℚ) := by exact_mod_cast hh
    rw [mul_div_assoc', le_div_iff₀ hhq]
    push_cast
    have h9 : (9 : ℚ) * h < 16 * w := by exact_mod_cast hratio
    linarith

/-- Witness for C5 amended: the 1920x1080 source with scale factor 1.2. -/
theorem C5_bg_invariant_amended_witness :
    ((0 : ℤ) < 1920 ∧ (1920 : ℤ) ≤ 1000000000 ∧ (0 : ℤ) < 1080 ∧
      (1080 : ℤ) ≤ 1000000000 ∧ (1 : ℚ) ≤ 6/5 ∧ (9 : ℤ) * 1080 < 16 * 1920) ∧
    ((convertToMobileFormat 1920 1080 (6/5)).bgScaleHeight = 1920 ∧
      1080 ≤ (convertToMobileFormat 1920 1080 (6/5)).bgScaleWidth) := by
  refine ⟨⟨by norm_num, by norm_num, by norm_num, by norm_num, by norm_num, by norm_num⟩, ?_⟩
  exact C5_bg_invariant_amended 1920 1080 (6/5) (by norm_num) (by norm_num) (by norm_num)
    (by norm_num) (by norm_num) (by norm_num)

/-- C6 counterexample: for the valid input duration=50, scene_times=[200]
(min_duration=60, max_duration=180) the planner emits (0, 180), whose end 180
exceeds the duration 50, refuting end <= duration over all valid inputs. -/
theorem C6_counterexample_end_exceeds_duration :
    ((0 : ℚ), (180 : ℚ)) ∈ plan 50 [200] [] 60 180 ∧ ¬ ((180 : ℚ) ≤ 50) := by
  constructor
  · norm_num [plan, sortedDedup, List.dedup, List.insertionSort, List.orderedInsert,
      List.pwFilter, planLoop, bestCut, List.foldl, abs]
  · norm_num

/-- C6 amended: for valid inputs whose candidate timestamps lie within
[0, duration], every emitted segment satisfies end > start, start >= 0 and
end <= duration, and the emitted sequence is pairwise non-overlapping in
ascending time order. -/
theorem C6_segment_bounds_amended (d mi ma : ℚ) (sc si : List ℚ)
    (hd : 0 < d) (hmi : 0 < mi) (hma : mi < ma)
    (hsc : ∀ t ∈ sc, 0 ≤ t ∧ t ≤ d) (hsi : ∀ t ∈ si, 0 ≤ t ∧ t ≤ d) :
    (∀ s ∈ plan d sc si mi ma, 0 ≤ s.1 ∧ s.1 < s.2 ∧ s.2 ≤ d) ∧
      (plan d sc si mi ma).Pairwise (fun s t => s.2 ≤ t.1) := by
  obtain ⟨e, hch⟩ := plan_chain d sc si mi ma
  have hmin := plan_minlen d mi ma sc si (le_of_lt hma)
  have hlen : ∀ s ∈ plan d sc si mi ma, s.1 ≤ s.2 := by
    intro s hs
    have := hmin s hs
    linarith
  have hle := plan_le d mi ma sc si (le_of_lt hd)
    (fun t ht => (hsc t ht).2) (fun t ht => (hsi t ht).2)
  constructor
  · intro s hs
    refine ⟨((isChain_bounds _ 0 e hch hlen).1 s hs).1, ?_, hle s hs⟩
    have := hmin s hs
    linarith
  · exact isChain_pairwise _ 0 e hch hlen

/-- Witness for C6 amended: duration=300 with one scene cut at 100. -/
theorem C6_segment_bounds_amended_witness :
    ((0 : ℚ) < 300 ∧ (0 : ℚ) < 60 ∧ (60 : ℚ) < 180 ∧
      (∀ t ∈ [(100 : ℚ)], 0 ≤ t ∧ t ≤ 300) ∧
      (∀ t ∈ ([] : List ℚ), 0 ≤ t ∧ t ≤ 300)) ∧
    ((∀ s ∈ plan 300 [100] [] 60 180, 0 ≤ s.1 ∧ s.1 < s.2 ∧ s.2 ≤ 300) ∧
      (plan 300 [100] [] 60 180).Pairwise (fun s t => s.2 ≤ t.1)) := by
  refine ⟨⟨by norm_num, by norm_num, by norm_num, by norm_num, by norm_num⟩, ?_⟩
  exact C6_segment_bounds_amended 300 60 180 [100] [] (by norm_num) (by norm_num)
    (by norm_num) (by norm_num) (by norm_num)

/-- C7: when the candidate timestamps lie within the video's timeline (as the
spec's data model defines timestamps) and the duration is below min_duration —
so no segment of sufficient length exists anywhere in the video — the planner
returns the empty sequence rather than an error.  In particular
plan(50, [], [], 60, 180) = []. -/
theorem C7_too_short_returns_empty (d mi ma : ℚ) (sc si : List ℚ) (hd : 0 < d)
    (hsc : ∀ t ∈ sc, 0 ≤ t ∧ t ≤ d) (hsi : ∀ t ∈ si, 0 ≤ t ∧ t ≤ d)
    (hdm : d < mi) :
    plan d sc si mi ma = [] := by
  have hA : ∀ c ∈ sortedDedup (sc ++ si ++ [0, d]), c ≤ d := by
    intro c hc
    rw [mem_sortedDedup] at hc
    rcases List.mem_append.mp hc with h | h
    · rcases List.mem_append.mp h with h1 | h1
      · exact (hsc c h1).2
      · exact (hsi c h1).2
    · rcases List.mem_cons.mp h with h1 | h1
      · rw [h1]; exact le_of_lt hd
      · rw [List.mem_singleton.mp h1]
  have hsmall : ∀ c ∈ (sortedDedup (sc ++ si ++ [0, d])).tail, c - 0 < mi := by
    intro c hc
    have := hA c (List.mem_of_mem_tail hc)
    linarith
  have pl := planLoop_all_small (sortedDedup (sc ++ si ++ [0, d])) mi ma
    (sortedDedup (sc ++ si ++ [0, d])).tail 0 hsmall
  simp only [plan]
  rw [pl, if_neg (show ¬ mi ≤ d - 0 by rw [sub_zero]; exact not_le.mpr hdm)]

/-- Witness for C7: the spec's own example, a 50-second video with no detected
cuts and min_duration 60 yields no segments. -/
theorem C7_too_short_returns_empty_witness :
    ((0 : ℚ) < 50 ∧ (∀ t ∈ ([] : List ℚ), 0 ≤ t ∧ t ≤ 50) ∧
      (∀ t ∈ ([] : List ℚ), 0 ≤ t ∧ t ≤ 50) ∧ (50 : ℚ) < 60) ∧
    plan 50 [] [] 60 180 = [] := by
  refine ⟨⟨by norm_num, by norm_num, by norm_num, by norm_num⟩, ?_⟩
  exact C7_too_short_returns_empty 50 60 180 [] [] (by norm_num) (by norm_num)
    (by norm_num) (by norm_num)

/-- C8: in the per-segment loop of process_video, a segment whose extraction
succeeds but whose mobile conversion fails still counts as successful and
keeps the original-aspect extracted clip as its result file, and neither a
conversion failure nor an extraction failure aborts the processing of the
surrounding segments: the segments before and after contribute exactly what
they would contribute on their own. -/
theorem C8_fallback_and_no_abort (pre suf : List SegOutcome) (t c : Bool) :
    processVideo (pre ++ ⟨true, true, false⟩ :: suf) =
        ((processVideo pre).1 + 1 + (processVideo suf).1,
         (processVideo pre).2 ++ ClipKind.original :: (processVideo suf).2) ∧
      processVideo (pre ++ ⟨false, t, c⟩ :: suf) =
        ((processVideo pre).1 + (processVideo suf).1,
         (processVideo pre).2 ++ (processVideo suf).2) := by
  constructor
  · rw [processVideo_append]
    simp [processVideoStep, add_assoc]
  · rw [processVideo_append]
    simp [processVideoStep]

/-- C9: the planner's emitted segments are fully contiguous: the first
emitted segment (if any) starts at 0 and each subsequent segment starts
exactly where the previous one ended, so the only uncovered footage is the
trailing remainder after the chain's final endpoint. -/
theorem C9_contiguous_chain (d : ℚ) (sc si : List ℚ) (mi ma : ℚ) :
    ∃ e, IsChain 0 (plan d sc si mi ma) e :=
  plan_chain d sc si mi ma

/-- C10: candidate timestamps are not clamped to [0, duration]: with
duration=100, scene_times=[90, 150] (min_duration=60, max_duration=180) the
planner emits the segment (90, 150), whose end 150 exceeds the duration. -/
theorem C10_unclamped_candidate_overflow :
    plan 100 [90, 150] [] 60 180 = [(0, 90), (90, 150)] ∧ ¬ ((150 : ℚ) ≤ 100) := by
  constructor
  · norm_num [plan, sortedDedup, List.dedup, List.insertionSort, List.orderedInsert,
      List.pwFilter, planLoop, bestCut, List.foldl, abs]
  · norm_num

end ShortsMaker
